import Mathlib

/-!
# Verification of `github-get-folder` (src/src/main.rs)

A shallow embedding of the recursive fetch-and-write core of the program:

* remote GraphQL lookups are modelled as pure functions from object ids (for
  the `Cont` query) or rev-parse expressions (for the `Start` query) to a
  `QueryOutcome`, the typed union the program matches on;
* the local filesystem is a pair of (partial) maps: file paths to text
  contents, and directory paths to existence, over `List String` component
  paths;
* `tokio::fs::write` and `tokio::fs::create_dir_all` are modelled with their
  real semantics: `write` overwrites an existing file but fails when the
  parent directory is missing or the target is a directory;
  `create_dir_all` creates every missing ancestor, is a no-op on existing
  directories, and fails when a file occupies any ancestor path;
* the concurrent fan-out (`buffer_unordered` + `try_collect`, lines 133-145)
  is linearized: entries are processed in list order, stopping at the first
  error, threading the filesystem state so that partial writes made before
  the failure persist;
* recursion through the remote graph is bounded by explicit fuel, since the
  modelled remote is an arbitrary function and could be cyclic.
-/

namespace GGF

/-! ## Remote object model (queries.graphql unions as matched in main.rs) -/

/-- The typed union a lookup resolves to: `Blob` (with optional text, absent
for binary payloads), `Tree` (ordered `(name, oid)` entries), `Commit`, `Tag`.
Mirrors `ContRepositoryObject` / `StartRepositoryObject`. -/
inductive Obj
  | blob (text : Option String)
  | tree (entries : List (String × String))
  | commit
  | tag
deriving DecidableEq

/-- One GraphQL round-trip as `Client::query` (lines 46-74) surfaces it:
either a transport/query-level failure (HTTP error, query errors, no `data`),
or a response carrying an optional `repository`, itself carrying an optional
`object`. -/
inductive QueryOutcome
  | transportError
  | response (repository : Option (Option Obj))
deriving DecidableEq

/-- The `Cont` lookup capability: object id to outcome. -/
abbrev Remote := String → QueryOutcome

/-- A response that resolved all the way to an object. -/
abbrev objResp (o : Obj) : QueryOutcome := .response (some (some o))

/-- A response resolving to a blob with the given optional text. -/
abbrev blobResp (t : Option String) : QueryOutcome := objResp (.blob t)

/-- A response resolving to a tree with the given entries. -/
abbrev treeResp (es : List (String × String)) : QueryOutcome := objResp (.tree es)

/-! ## Errors

Each constructor corresponds to one failure point of the program; the
`Cont`-side and `Start`-side rejections of commit/tag objects are distinct
bail sites (lines 117-118 and lines 235-236 respectively), which the spec
names `UnsupportedNestedKind` and `UnsupportedRootKind`. -/

inductive GErr
  | lookupFailed
  | incompleteResponse
  | noRepository
  | noObject
  | binaryBlob
  | unexpectedCommitCont
  | unexpectedTagCont
  | unexpectedCommitStart
  | unexpectedTagStart
  | writeNoParent (p : List String)
  | writeTargetIsDir (p : List String)
  | createDirConflict (p : List String)
  | outOfFuel
deriving DecidableEq

/-! ## Filesystem model -/

/-- Local filesystem state: text contents of files and existence of
directories, both addressed by component paths (the empty path is the
walk's root destination). -/
structure FS where
  files : List String → Option String
  dirs : List String → Bool

/-- All ancestor paths of `p`, including `[]` and `p` itself. -/
def prefixesOf (p : List String) : List (List String) :=
  (List.range (p.length + 1)).map (fun n => p.take n)

/-- Model of `tokio::fs::write` (lines 97-101 and 220): creates or fully
replaces the file at `p`; fails when the target is a directory or the parent
directory does not exist. It does not create missing parent directories. -/
def fsWrite (p : List String) (t : String) (fs : FS) : Except GErr FS :=
  if fs.dirs p then .error (.writeTargetIsDir p)
  else if fs.dirs p.dropLast then
    .ok { fs with files := fun q => if q = p then some t else fs.files q }
  else .error (.writeNoParent p)

/-- Model of `tokio::fs::create_dir_all` (line 130): creates the directory
and every missing ancestor, succeeds when they already exist, fails when a
file occupies any ancestor path (or the path itself). -/
def createDirAll (p : List String) (fs : FS) : Except GErr FS :=
  if (prefixesOf p).any (fun q => (fs.files q).isSome) then
    .error (.createDirConflict p)
  else
    .ok { fs with dirs := fun q => fs.dirs q || decide (q ∈ prefixesOf p) }

/-! ## The walk -/

/-- Sequentialized fan-out over a directory's entries
(`stream::iter(entries).map(step).buffer_unordered(..).try_collect()`,
lines 133-145): run `step` on each `(name, oid)` entry in order, threading
the filesystem, stopping at the first error. -/
def goEntries (step : String → String → FS → FS × Option GErr) :
    List (String × String) → FS → FS × Option GErr
  | [], fs => (fs, none)
  | (name, oid) :: rest, fs =>
    match step name oid fs with
    | (fs', none) => goEntries step rest fs'
    | (fs', some e) => (fs', some e)

/-- Model of `get` (lines 77-121): one `Cont` lookup on `oid`, then dispatch
on the resolved kind. The body of `tree` (lines 123-146) is inlined at its
call site (line 105) so that the recursion is structural in the fuel. -/
def get (remote : Remote) : Nat → List String → String → FS → FS × Option GErr
  | 0, _, _, fs => (fs, some .outOfFuel)
  | fuel+1, local_path, oid, fs =>
    match remote oid with
    | .transportError => (fs, some .lookupFailed)
    | .response none => (fs, some .incompleteResponse)
    | .response (some none) => (fs, some .incompleteResponse)
    | .response (some (some (.blob none))) => (fs, some .binaryBlob)
    | .response (some (some (.blob (some t)))) =>
      match fsWrite local_path t fs with
      | .ok fs' => (fs', none)
      | .error e => (fs, some e)
    | .response (some (some (.tree entries))) =>
      match createDirAll local_path fs with
      | .error e => (fs, some e)
      | .ok fs1 =>
        goEntries (fun name oid' => get remote fuel (local_path ++ [name]) oid')
          entries fs1
    | .response (some (some .commit)) => (fs, some .unexpectedCommitCont)
    | .response (some (some .tag)) => (fs, some .unexpectedTagCont)

/-- Model of `tree` (lines 123-146): ensure the directory exists, then fan
out over the entries, each child materialized at `local_path ++ [name]`. -/
def tree (remote : Remote) (fuel : Nat) (local_path : List String)
    (entries : List (String × String)) (fs : FS) : FS × Option GErr :=
  match createDirAll local_path fs with
  | .error e => (fs, some e)
  | .ok fs1 =>
    goEntries (fun name oid' => get remote fuel (local_path ++ [name]) oid')
      entries fs1

/-! ## Remote path handling (camino `Utf8PathBuf`, lines 156-157, 197-207) -/

/-- A path component as produced by camino's `components()`: the root
separator or a normal named component. -/
inductive UComponent
  | rootDir
  | normal (s : String)
deriving DecidableEq

/-- A parsed UTF-8 path: an absoluteness flag plus normal components, the
shapes reachable from the CLI inputs relevant here. -/
structure UPath where
  absolute : Bool
  comps : List String
deriving DecidableEq

/-- Model of `Utf8Path::components()`: the root component (when absolute)
followed by the normal components. -/
def UPath.components (p : UPath) : List UComponent :=
  (if p.absolute then [UComponent.rootDir] else []) ++ p.comps.map UComponent.normal

/-- Model of the `Utf8PathBuf::push` semantics used by `collect`: pushing the
root component replaces the whole path with the root; pushing a normal
component appends it. -/
def UPath.push (p : UPath) : UComponent → UPath
  | .rootDir => { absolute := true, comps := [] }
  | .normal s => { absolute := p.absolute, comps := p.comps ++ [s] }

/-- Model of `collect::<Utf8PathBuf>()` over a component sequence. -/
def UPath.ofComponents (l : List UComponent) : UPath :=
  l.foldl UPath.push { absolute := false, comps := [] }

/-- Model of `Display` for `Utf8PathBuf` on the shapes above. -/
def UPath.render (p : UPath) : String :=
  if p.absolute then "/" ++ String.intercalate "/" p.comps
  else String.intercalate "/" p.comps

/-- Lines 197-207: when the remote path is absolute, reverse its components,
skip one, collect, reverse again, and collect into a path; otherwise keep it
unchanged. (Note `.rev().skip(1)` drops the item that comes last in the
original component order.) -/
def normalizeRemote (p : UPath) : UPath :=
  if p.absolute then
    UPath.ofComponents ((p.components.reverse.drop 1).reverse)
  else p

/-- Line 213: the `Start` lookup key `format!("{}:{}", commit_ish, remote_path)`
built from the normalized remote path. -/
def revParse (commit_ish : String) (p : UPath) : String :=
  commit_ish ++ ":" ++ (normalizeRemote p).render

/-! ## The program entry point -/

/-- Model of `_main` (lines 182-240) after argument parsing and client
construction: normalize the remote path, perform the `Start` lookup keyed by
the rev-parse expression, and dispatch on the root object. -/
def _main (startLookup : String → QueryOutcome) (remote : Remote) (fuel : Nat)
    (commit_ish : String) (remote_path : UPath) (local_path : List String)
    (fs : FS) : FS × Option GErr :=
  match startLookup (revParse commit_ish remote_path) with
  | .transportError => (fs, some .lookupFailed)
  | .response none => (fs, some .noRepository)
  | .response (some none) => (fs, some .noObject)
  | .response (some (some (.blob none))) => (fs, some .binaryBlob)
  | .response (some (some (.blob (some t)))) =>
    match fsWrite local_path t fs with
    | .ok fs' => (fs', none)
    | .error e => (fs, some e)
  | .response (some (some (.tree entries))) =>
    tree remote fuel local_path entries fs
  | .response (some (some .commit)) => (fs, some .unexpectedCommitStart)
  | .response (some (some .tag)) => (fs, some .unexpectedTagStart)

/-! ## Concurrency bound (line 132) -/

/-- The usize maximum on the 64-bit targets the program ships for. -/
def usizeMax : Nat := 2 ^ 64 - 1

/-- Model of `usize::saturating_add` on in-range operands. -/
def usizeSaturatingAdd (a b : Nat) : Nat := min (a + b) usizeMax

/-- Line 132: `let concurrency = entries.len().saturating_add(1);`, the cap
passed to `buffer_unordered` for one directory's fan-out. -/
def treeConcurrency (entries : List (String × String)) : Nat :=
  usizeSaturatingAdd entries.length 1

/-! ## Well-formedness predicates -/

/-- No path holds both a file and a directory. -/
def FS.sep (fs : FS) : Prop :=
  ∀ p, (fs.files p).isSome = true → fs.dirs p = false

/-- Directories are closed under taking ancestors. -/
def FS.prefClosed (fs : FS) : Prop :=
  ∀ p n, fs.dirs p = true → fs.dirs (p.take n) = true

/-- Git tree listings carry pairwise-distinct entry names; a remote is
well-formed when every tree response satisfies that. -/
def Remote.wf (remote : Remote) : Prop :=
  ∀ oid entries, remote oid = treeResp entries → (entries.map Prod.fst).Nodup

/-- The same, for the `Start` lookup. -/
def StartWf (startLookup : String → QueryOutcome) : Prop :=
  ∀ k entries, startLookup k = treeResp entries → (entries.map Prod.fst).Nodup

/-- The effect on a file map of performing a sequence of whole-file writes in
order (a later write to the same path overwrites an earlier one); used to
state that a run's only effects on files are such writes. -/
def applyWrites (ws : List (List String × String))
    (f : List String → Option String) : List String → Option String :=
  match ws with
  | [] => f
  | w :: rest => applyWrites rest (fun q => if q = w.1 then some w.2 else f q)

/-! ## Concrete fixtures (used to exercise the theorems on closed inputs) -/

/-- A fresh destination: no files, only the root directory. -/
def emptyFS : FS := { files := fun _ => none, dirs := fun p => p.isEmpty }

/-- A destination holding the root and one subdirectory `d`. -/
def fsD : FS := { files := fun _ => none, dirs := fun p => decide (p = [] ∨ p = ["d"]) }

/-- Result of writing `"x"` at `["d", "f"]` on `fsD`. -/
def fsD' : FS :=
  { fsD with files := fun q => if q = ["d", "f"] then some "x" else fsD.files q }

/-- A relative empty remote path (the parse of `"."`-style inputs). -/
def relRoot : UPath := { absolute := false, comps := [] }

/-- A start lookup that always resolves to a text blob `"x"`. -/
def startBlobX : String → QueryOutcome := fun _ => blobResp (some "x")

/-- A start lookup that always resolves to a binary blob. -/
def startBlobNone : String → QueryOutcome := fun _ => blobResp none

/-- A start lookup that always resolves to a commit reference. -/
def startCommit : String → QueryOutcome := fun _ => objResp .commit

/-- A start lookup that always resolves to a tag reference. -/
def startTag : String → QueryOutcome := fun _ => objResp .tag

/-- A start lookup resolving to a tree with one text entry `a.txt`. -/
def startTreeA : String → QueryOutcome := fun _ => treeResp [("a.txt", "id1")]

/-- A remote with no reachable objects. -/
def remoteEmpty : Remote := fun _ => .transportError

/-- A remote where every object is the text blob `"x"`. -/
def blobRemoteX : Remote := fun _ => blobResp (some "x")

/-- A remote where every object is a binary blob. -/
def blobRemoteNone : Remote := fun _ => blobResp none

/-- A remote where every object is a commit reference. -/
def remoteCommit : Remote := fun _ => objResp .commit

/-- A remote where every object is a tag reference. -/
def remoteTag : Remote := fun _ => objResp .tag

/-- A remote holding the single text blob `id1`. -/
def remoteA : Remote := fun o => if o = "id1" then blobResp (some "x") else .transportError

/-- Intermediate state of the one-entry walk on `emptyFS`: root created. -/
def fsStepA : FS :=
  { emptyFS with dirs := fun q => emptyFS.dirs q || decide (q ∈ prefixesOf []) }

/-- Final state of the one-entry walk on `emptyFS`: `a.txt` written. -/
def fsRunA : FS :=
  { fsStepA with files := fun q => if q = ["a.txt"] then some "x" else fsStepA.files q }

/-- A remote where `d` is a tree containing a single binary entry `bin`. -/
def remoteBin : Remote := fun o =>
  if o = "d" then treeResp [("bin", "b1")]
  else if o = "b1" then blobResp none
  else .transportError

/-- Result of writing `"x"` at `["f"]` on `emptyFS`. -/
def fsF : FS :=
  { emptyFS with files := fun q => if q = ["f"] then some "x" else emptyFS.files q }

/-! ## Ancestor-path lemmas -/

theorem take_isPrefix_self (l : List String) (n : Nat) : l.take n <+: l :=
  ⟨l.drop n, List.take_append_drop n l⟩

theorem mem_prefixesOf {q p : List String} : q ∈ prefixesOf p ↔ q <+: p := by
  unfold prefixesOf
  simp only [List.mem_map, List.mem_range]
  constructor
  · rintro ⟨n, _, rfl⟩
    exact take_isPrefix_self p n
  · intro h
    exact ⟨q.length, Nat.lt_succ_of_le h.length_le, (List.prefix_iff_eq_take.mp h).symm⟩

theorem prefix_of_prefix_of_le {l₁ l₂ q : List String} (h₁ : l₁ <+: q) (h₂ : l₂ <+: q)
    (h : l₁.length ≤ l₂.length) : l₁ <+: l₂ := by
  have e₁ := List.prefix_iff_eq_take.mp h₁
  have e₂ := List.prefix_iff_eq_take.mp h₂
  refine List.prefix_iff_eq_take.mpr ?_
  rw [e₂, List.take_take, Nat.min_eq_left h]
  exact e₁

theorem prefix_snoc_iff {q lp : List String} {n : String} :
    q <+: lp ++ [n] ↔ q <+: lp ∨ q = lp ++ [n] := by
  constructor
  · intro h
    rcases Nat.lt_or_ge q.length (lp ++ [n]).length with hl | hl
    · left
      refine prefix_of_prefix_of_le h (List.prefix_append lp [n]) ?_
      have : q.length < lp.length + 1 := by simpa using hl
      omega
    · right
      exact h.eq_of_length (Nat.le_antisymm h.length_le (by simpa using hl))
  · rintro (h | rfl)
    · exact h.trans (List.prefix_append lp [n])
    · exact List.prefix_refl _

theorem snoc_prefix_same {lp q : List String} {n m : String}
    (h₁ : lp ++ [n] <+: q) (h₂ : lp ++ [m] <+: q) : n = m := by
  have h := prefix_of_prefix_of_le h₁ h₂ (by simp)
  have h' := h.eq_of_length (by simp)
  have h'' := List.append_cancel_left h'
  simpa using h''

/-! ## Filesystem-operation lemmas -/

theorem fsWrite_ok {p : List String} {t : String} {fs fs' : FS}
    (h : fsWrite p t fs = .ok fs') :
    fs.dirs p = false ∧ fs.dirs p.dropLast = true ∧
      (∀ q, fs'.files q = if q = p then some t else fs.files q) ∧
      (∀ q, fs'.dirs q = fs.dirs q) := by
  by_cases h1 : fs.dirs p = true
  · simp [fsWrite, h1] at h
  · by_cases h2 : fs.dirs p.dropLast = true
    · have he : ({ fs with files := fun q => if q = p then some t else fs.files q } : FS)
          = fs' := by
        simpa [fsWrite, h1, h2] using h
      subst he
      exact ⟨by simpa using h1, h2, fun q => rfl, fun q => rfl⟩
    · simp [fsWrite, h1, h2] at h

theorem fsWrite_eq_ok {p : List String} {t : String} {fs : FS}
    (h1 : fs.dirs p = false) (h2 : fs.dirs p.dropLast = true) :
    fsWrite p t fs = .ok { fs with files := fun q => if q = p then some t else fs.files q } := by
  simp [fsWrite, h1, h2]

theorem createDirAll_ok {p : List String} {fs fs' : FS}
    (h : createDirAll p fs = .ok fs') :
    (∀ q, q <+: p → fs.files q = none) ∧
      (∀ q, fs'.files q = fs.files q) ∧
      (∀ q, fs'.dirs q = true ↔ (fs.dirs q = true ∨ q <+: p)) ∧
      (∀ q, ¬ q <+: p → fs'.dirs q = fs.dirs q) := by
  by_cases hg : (prefixesOf p).any (fun q => (fs.files q).isSome) = true
  · simp [createDirAll, hg] at h
  · have hnone : ∀ q, q <+: p → fs.files q = none := by
      intro q hq
      by_contra hne
      apply hg
      rw [List.any_eq_true]
      exact ⟨q, mem_prefixesOf.mpr hq, by simpa [Option.isSome_iff_ne_none] using hne⟩
    have he : ({ fs with dirs := fun q => fs.dirs q || decide (q ∈ prefixesOf p) } : FS)
        = fs' := by
      simpa [createDirAll, hg] using h
    subst he
    refine ⟨hnone, fun q => rfl, fun q => ?_, fun q hq => ?_⟩
    · show (fs.dirs q || decide (q ∈ prefixesOf p)) = true ↔ _
      simp [mem_prefixesOf]
    · show (fs.dirs q || decide (q ∈ prefixesOf p)) = fs.dirs q
      simp [mem_prefixesOf, hq]

theorem createDirAll_eq_ok {p : List String} {fs : FS}
    (h : ∀ q, q <+: p → fs.files q = none) :
    createDirAll p fs
      = .ok { fs with dirs := fun q => fs.dirs q || decide (q ∈ prefixesOf p) } := by
  have hg : (prefixesOf p).any (fun q => (fs.files q).isSome) = false := by
    rw [List.any_eq_false]
    intro q hq
    simp [h q (mem_prefixesOf.mp hq)]
  simp [createDirAll, hg]

theorem fsWrite_sep {p : List String} {t : String} {fs fs' : FS}
    (h : fsWrite p t fs = .ok fs') (hs : fs.sep) : fs'.sep := by
  obtain ⟨h1, _, hf, hd⟩ := fsWrite_ok h
  intro q hq
  rw [hd]
  rw [hf q] at hq
  by_cases hqp : q = p
  · subst hqp; exact h1
  · rw [if_neg hqp] at hq; exact hs q hq

theorem createDirAll_sep {p : List String} {fs fs' : FS}
    (h : createDirAll p fs = .ok fs') (hs : fs.sep) : fs'.sep := by
  obtain ⟨hg, hf, _, hd'⟩ := createDirAll_ok h
  intro q hq
  rw [hf q] at hq
  by_cases hqp : q <+: p
  · rw [hg q hqp] at hq; simp at hq
  · rw [hd' q hqp]; exact hs q hq

/-! ## Generic fan-out lemmas -/

theorem goEntries_append (step : String → String → FS → FS × Option GErr) :
    ∀ (xs ys : List (String × String)) (fs : FS),
      goEntries step (xs ++ ys) fs =
        match goEntries step xs fs with
        | (fs', none) => goEntries step ys fs'
        | (fs', some e) => (fs', some e) := by
  intro xs
  induction xs with
  | nil => intro ys fs; rfl
  | cons hd tl ih =>
    intro ys fs
    obtain ⟨n, o⟩ := hd
    simp only [List.cons_append, goEntries]
    cases hs : step n o fs with
    | mk fs' err =>
      cases err with
      | none => exact ih ys fs'
      | some e => rfl

theorem goEntries_files_frame {step : String → String → FS → FS × Option GErr}
    {q : List String} :
    ∀ (entries : List (String × String)) (fs : FS),
      (∀ p, p ∈ entries → ∀ fs0 : FS, ((step p.1 p.2 fs0).1).files q = fs0.files q) →
      ((goEntries step entries fs).1).files q = fs.files q := by
  intro entries
  induction entries with
  | nil => intro fs _; rfl
  | cons hd tl ih =>
    intro fs h
    obtain ⟨n, o⟩ := hd
    simp only [goEntries]
    cases hs : step n o fs with
    | mk fs' err =>
      have h1 : fs'.files q = fs.files q := by
        have h2 := h (n, o) (List.mem_cons_self _ _) fs
        rw [hs] at h2
        exact h2
      cases err with
      | none => exact (ih fs' (fun p hp => h p (List.mem_cons_of_mem _ hp))).trans h1
      | some e => exact h1

theorem goEntries_dirs_frame {step : String → String → FS → FS × Option GErr}
    {q : List String} :
    ∀ (entries : List (String × String)) (fs : FS),
      (∀ p, p ∈ entries → ∀ fs0 : FS, ((step p.1 p.2 fs0).1).dirs q = fs0.dirs q) →
      ((goEntries step entries fs).1).dirs q = fs.dirs q := by
  intro entries
  induction entries with
  | nil => intro fs _; rfl
  | cons hd tl ih =>
    intro fs h
    obtain ⟨n, o⟩ := hd
    simp only [goEntries]
    cases hs : step n o fs with
    | mk fs' err =>
      have h1 : fs'.dirs q = fs.dirs q := by
        have h2 := h (n, o) (List.mem_cons_self _ _) fs
        rw [hs] at h2
        exact h2
      cases err with
      | none => exact (ih fs' (fun p hp => h p (List.mem_cons_of_mem _ hp))).trans h1
      | some e => exact h1

theorem goEntries_dirs_mono {step : String → String → FS → FS × Option GErr}
    {q : List String} :
    ∀ (entries : List (String × String)) (fs : FS),
      (∀ p, p ∈ entries → ∀ fs0 : FS, fs0.dirs q = true → ((step p.1 p.2 fs0).1).dirs q = true) →
      fs.dirs q = true → ((goEntries step entries fs).1).dirs q = true := by
  intro entries
  induction entries with
  | nil => intro fs _ h0; exact h0
  | cons hd tl ih =>
    intro fs h h0
    obtain ⟨n, o⟩ := hd
    simp only [goEntries]
    cases hs : step n o fs with
    | mk fs' err =>
      have h1 : fs'.dirs q = true := by
        have h2 := h (n, o) (List.mem_cons_self _ _) fs h0
        rw [hs] at h2
        exact h2
      cases err with
      | none => exact ih fs' (fun p hp => h p (List.mem_cons_of_mem _ hp)) h1
      | some e => exact h1

theorem goEntries_files_some {step : String → String → FS → FS × Option GErr}
    {q : List String} :
    ∀ (entries : List (String × String)) (fs : FS),
      (∀ p, p ∈ entries → ∀ fs0 : FS,
        ((step p.1 p.2 fs0).1).files q = fs0.files q ∨ ∃ t, ((step p.1 p.2 fs0).1).files q = some t) →
      (((goEntries step entries fs).1).files q = fs.files q ∨
        ∃ t, ((goEntries step entries fs).1).files q = some t) := by
  intro entries
  induction entries with
  | nil => intro fs _; exact Or.inl rfl
  | cons hd tl ih =>
    intro fs h
    obtain ⟨n, o⟩ := hd
    simp only [goEntries]
    cases hs : step n o fs with
    | mk fs' err =>
      have h1 : fs'.files q = fs.files q ∨ ∃ t, fs'.files q = some t := by
        have h2 := h (n, o) (List.mem_cons_self _ _) fs
        rw [hs] at h2
        exact h2
      cases err with
      | none =>
        rcases ih fs' (fun p hp => h p (List.mem_cons_of_mem _ hp)) with h3 | h3
        · rcases h1 with h1 | ⟨t, h1⟩
          · exact Or.inl (h3.trans h1)
          · exact Or.inr ⟨t, h3.trans h1⟩
        · exact Or.inr h3
      | some e => exact h1

theorem goEntries_sep {step : String → String → FS → FS × Option GErr} :
    ∀ (entries : List (String × String)) (fs : FS),
      (∀ p, p ∈ entries → ∀ fs0 : FS, fs0.sep → ((step p.1 p.2 fs0).1).sep) →
      fs.sep → ((goEntries step entries fs).1).sep := by
  intro entries
  induction entries with
  | nil => intro fs _ h0; exact h0
  | cons hd tl ih =>
    intro fs h h0
    obtain ⟨n, o⟩ := hd
    simp only [goEntries]
    cases hs : step n o fs with
    | mk fs' err =>
      have h1 : fs'.sep := by
        have h2 := h (n, o) (List.mem_cons_self _ _) fs h0
        rw [hs] at h2
        exact h2
      cases err with
      | none => exact ih fs' (fun p hp => h p (List.mem_cons_of_mem _ hp)) h1
      | some e => exact h1

/-! ## Frame, monotonicity and invariant lemmas for the walk -/

theorem get_files_frame (remote : Remote) (q : List String) :
    ∀ (fuel : Nat) (lp : List String) (oid : String) (fs : FS), ¬ lp <+: q →
      ((get remote fuel lp oid fs).1).files q = fs.files q := by
  intro fuel
  induction fuel with
  | zero => intro lp oid fs _; rfl
  | succ fuel ih =>
    intro lp oid fs hq
    rcases hr : remote oid with _ | (_ | (_ | ((_ | t) | es | _ | _)))
    · simp [get, hr]
    · simp [get, hr]
    · simp [get, hr]
    · simp [get, hr]
    · simp only [get, hr]
      cases hw : fsWrite lp t fs with
      | ok fs' =>
        obtain ⟨_, _, hf, _⟩ := fsWrite_ok hw
        have hne : q ≠ lp := by rintro rfl; exact hq (List.prefix_refl q)
        simp [hf q, hne]
      | error e => rfl
    · simp only [get, hr]
      cases hc : createDirAll lp fs with
      | error e => rfl
      | ok fs1 =>
        obtain ⟨_, hf, _, _⟩ := createDirAll_ok hc
        exact (goEntries_files_frame es fs1 (fun p hp fs0 =>
          ih (lp ++ [p.1]) p.2 fs0 (fun hpre =>
            hq ((List.prefix_append lp [p.1]).trans hpre)))).trans (hf q)
    · simp [get, hr]
    · simp [get, hr]

theorem get_dirs_frame (remote : Remote) (q : List String) :
    ∀ (fuel : Nat) (lp : List String) (oid : String) (fs : FS), ¬ q <+: lp → ¬ lp <+: q →
      ((get remote fuel lp oid fs).1).dirs q = fs.dirs q := by
  intro fuel
  induction fuel with
  | zero => intro lp oid fs _ _; rfl
  | succ fuel ih =>
    intro lp oid fs hq1 hq2
    rcases hr : remote oid with _ | (_ | (_ | ((_ | t) | es | _ | _)))
    · simp [get, hr]
    · simp [get, hr]
    · simp [get, hr]
    · simp [get, hr]
    · simp only [get, hr]
      cases hw : fsWrite lp t fs with
      | ok fs' =>
        obtain ⟨_, _, _, hd⟩ := fsWrite_ok hw
        simp [hd q]
      | error e => rfl
    · simp only [get, hr]
      cases hc : createDirAll lp fs with
      | error e => rfl
      | ok fs1 =>
        obtain ⟨_, _, _, hd'⟩ := createDirAll_ok hc
        refine (goEntries_dirs_frame es fs1 (fun p hp fs0 => ?_)).trans (hd' q hq1)
        refine ih (lp ++ [p.1]) p.2 fs0 (fun hpre => ?_) (fun hpre => ?_)
        · rcases prefix_snoc_iff.mp hpre with h | h
          · exact hq1 h
          · exact hq2 (h ▸ List.prefix_append lp [p.1])
        · exact hq2 ((List.prefix_append lp [p.1]).trans hpre)
    · simp [get, hr]
    · simp [get, hr]

theorem get_dirs_mono (remote : Remote) (q : List String) :
    ∀ (fuel : Nat) (lp : List String) (oid : String) (fs : FS), fs.dirs q = true →
      ((get remote fuel lp oid fs).1).dirs q = true := by
  intro fuel
  induction fuel with
  | zero => intro lp oid fs h0; exact h0
  | succ fuel ih =>
    intro lp oid fs h0
    rcases hr : remote oid with _ | (_ | (_ | ((_ | t) | es | _ | _)))
    · simp [get, hr, h0]
    · simp [get, hr, h0]
    · simp [get, hr, h0]
    · simp [get, hr, h0]
    · simp only [get, hr]
      cases hw : fsWrite lp t fs with
      | ok fs' =>
        obtain ⟨_, _, _, hd⟩ := fsWrite_ok hw
        simp [hd q, h0]
      | error e => exact h0
    · simp only [get, hr]
      cases hc : createDirAll lp fs with
      | error e => exact h0
      | ok fs1 =>
        obtain ⟨_, _, hd, _⟩ := createDirAll_ok hc
        exact goEntries_dirs_mono es fs1 (fun p hp fs0 => ih (lp ++ [p.1]) p.2 fs0)
          ((hd q).mpr (Or.inl h0))
    · simp [get, hr, h0]
    · simp [get, hr, h0]

theorem get_files_some (remote : Remote) (q : List String) :
    ∀ (fuel : Nat) (lp : List String) (oid : String) (fs : FS),
      ((get remote fuel lp oid fs).1).files q = fs.files q ∨
        ∃ t, ((get remote fuel lp oid fs).1).files q = some t := by
  intro fuel
  induction fuel with
  | zero => intro lp oid fs; exact Or.inl rfl
  | succ fuel ih =>
    intro lp oid fs
    rcases hr : remote oid with _ | (_ | (_ | ((_ | t) | es | _ | _)))
    · simp [get, hr]
    · simp [get, hr]
    · simp [get, hr]
    · simp [get, hr]
    · simp only [get, hr]
      cases hw : fsWrite lp t fs with
      | ok fs' =>
        obtain ⟨_, _, hf, _⟩ := fsWrite_ok hw
        by_cases hqp : q = lp
        · exact Or.inr ⟨t, by rw [hf q, if_pos hqp]⟩
        · exact Or.inl (by rw [hf q, if_neg hqp])
      | error e => exact Or.inl rfl
    · simp only [get, hr]
      cases hc : createDirAll lp fs with
      | error e => exact Or.inl rfl
      | ok fs1 =>
        obtain ⟨_, hf, _, _⟩ := createDirAll_ok hc
        rcases @goEntries_files_some
            (fun name oid' => get remote fuel (lp ++ [name]) oid') q
            es fs1 (fun p hp fs0 => ih (lp ++ [p.1]) p.2 fs0) with
          h | h
        · exact Or.inl (h.trans (hf q))
        · exact Or.inr h
    · simp [get, hr]
    · simp [get, hr]

theorem get_sep (remote : Remote) :
    ∀ (fuel : Nat) (lp : List String) (oid : String) (fs : FS), fs.sep →
      ((get remote fuel lp oid fs).1).sep := by
  intro fuel
  induction fuel with
  | zero => intro lp oid fs h0; exact h0
  | succ fuel ih =>
    intro lp oid fs h0
    rcases hr : remote oid with _ | (_ | (_ | ((_ | t) | es | _ | _)))
    · simpa [get, hr] using h0
    · simpa [get, hr] using h0
    · simpa [get, hr] using h0
    · simpa [get, hr] using h0
    · simp only [get, hr]
      cases hw : fsWrite lp t fs with
      | ok fs' => exact fsWrite_sep hw h0
      | error e => exact h0
    · simp only [get, hr]
      cases hc : createDirAll lp fs with
      | error e => exact h0
      | ok fs1 =>
        exact goEntries_sep es fs1 (fun p hp fs0 => ih (lp ++ [p.1]) p.2 fs0)
          (createDirAll_sep hc h0)
    · simpa [get, hr] using h0
    · simpa [get, hr] using h0

theorem get_succ_tree {remote : Remote} {fuel : Nat} {lp : List String} {oid : String}
    {entries : List (String × String)} {fs : FS} (h : remote oid = treeResp entries) :
    get remote (fuel + 1) lp oid fs = tree remote fuel lp entries fs := by
  simp only [get, h, treeResp, objResp, tree]

/-! ## Replay lemmas: a second run over an already-materialized state succeeds
and changes nothing -/

theorem goEntries_replay (remote : Remote) (fuel : Nat) (lp : List String)
    (IH : ∀ (lp' : List String) (oid : String) (fs fs₁ fs' : FS),
      get remote fuel lp' oid fs = (fs₁, none) → fs'.sep →
      (∀ q, lp' <+: q → fs'.files q = fs₁.files q) →
      (∀ q, fs₁.dirs q = true → fs'.dirs q = true) →
      (get remote fuel lp' oid fs').2 = none ∧
        ∀ q, ((get remote fuel lp' oid fs').1).files q = fs'.files q ∧
          ((get remote fuel lp' oid fs').1).dirs q = fs'.dirs q) :
    ∀ (entries : List (String × String)) (fs fs₁ fs' : FS),
      (entries.map Prod.fst).Nodup →
      goEntries (fun name oid' => get remote fuel (lp ++ [name]) oid') entries fs
        = (fs₁, none) →
      fs'.sep →
      (∀ q n o, (n, o) ∈ entries → lp ++ [n] <+: q → fs'.files q = fs₁.files q) →
      (∀ q, fs₁.dirs q = true → fs'.dirs q = true) →
      (goEntries (fun name oid' => get remote fuel (lp ++ [name]) oid') entries fs').2
          = none ∧
        ∀ q,
          ((goEntries (fun name oid' => get remote fuel (lp ++ [name]) oid') entries
            fs').1).files q = fs'.files q ∧
          ((goEntries (fun name oid' => get remote fuel (lp ++ [name]) oid') entries
            fs').1).dirs q = fs'.dirs q := by
  intro entries
  induction entries with
  | nil =>
    intro fs fs₁ fs' _ h1 _ _ _
    exact ⟨rfl, fun q => ⟨rfl, rfl⟩⟩
  | cons hd tl ihtl =>
    intro fs fs₁ fs' hnd h1 hsep hfiles hdirs
    obtain ⟨n, o⟩ := hd
    rw [List.map_cons, List.nodup_cons] at hnd
    obtain ⟨hn_not, hnd_tl⟩ := hnd
    simp only [goEntries] at h1 ⊢
    cases hs : get remote fuel (lp ++ [n]) o fs with
    | mk fsb err =>
      rw [hs] at h1
      cases err with
      | some e => simp at h1
      | none =>
        replace h1 :
            goEntries (fun name oid' => get remote fuel (lp ++ [name]) oid') tl fsb
              = (fs₁, none) := h1
        have hrest : ∀ q, lp ++ [n] <+: q → fs₁.files q = fsb.files q := by
          intro q hq
          have hfr := @goEntries_files_frame
            (fun name oid' => get remote fuel (lp ++ [name]) oid') q
            tl fsb (fun p hp fs0 => get_files_frame remote q fuel (lp ++ [p.1]) p.2 fs0
              (fun hpre => hn_not (by
                have : n = p.1 := snoc_prefix_same hq hpre
                rw [this]
                exact List.mem_map.mpr ⟨p, hp, rfl⟩)))
          rw [h1] at hfr
          exact hfr
        have hdmono : ∀ q, fsb.dirs q = true → fs₁.dirs q = true := by
          intro q hq
          have hm := @goEntries_dirs_mono
            (fun name oid' => get remote fuel (lp ++ [name]) oid') q
            tl fsb (fun p hp fs0 => get_dirs_mono remote q fuel (lp ++ [p.1]) p.2 fs0) hq
          rw [h1] at hm
          exact hm
        obtain ⟨hnone2, hext2⟩ := IH (lp ++ [n]) o fs fsb fs' hs hsep
          (fun q hq => (hfiles q n o (List.mem_cons_self _ _) hq).trans (hrest q hq))
          (fun q hq => hdirs q (hdmono q hq))
        cases hgb : get remote fuel (lp ++ [n]) o fs' with
        | mk fs'b err' =>
          rw [hgb] at hnone2 hext2
          simp only at hnone2
          subst hnone2
          have hsep'b : fs'b.sep := by
            intro p hp
            rw [(hext2 p).2]
            apply hsep
            rw [← (hext2 p).1]
            exact hp
          obtain ⟨hres, hrext⟩ := ihtl fsb fs₁ fs'b hnd_tl h1 hsep'b
            (fun q m o' hm hq => ((hext2 q).1).trans
              (hfiles q m o' (List.mem_cons_of_mem _ hm) hq))
            (fun q hq => ((hext2 q).2) ▸ hdirs q hq)
          exact ⟨hres, fun q => ⟨(hrext q).1.trans (hext2 q).1,
            (hrext q).2.trans (hext2 q).2⟩⟩

theorem tree_replay_aux (remote : Remote) (fuel : Nat) (lp : List String)
    (IH : ∀ (lp' : List String) (oid : String) (fs fs₁ fs' : FS),
      get remote fuel lp' oid fs = (fs₁, none) → fs'.sep →
      (∀ q, lp' <+: q → fs'.files q = fs₁.files q) →
      (∀ q, fs₁.dirs q = true → fs'.dirs q = true) →
      (get remote fuel lp' oid fs').2 = none ∧
        ∀ q, ((get remote fuel lp' oid fs').1).files q = fs'.files q ∧
          ((get remote fuel lp' oid fs').1).dirs q = fs'.dirs q) :
    ∀ (entries : List (String × String)) (fs fs₁ fs' : FS),
      (entries.map Prod.fst).Nodup →
      tree remote fuel lp entries fs = (fs₁, none) →
      fs'.sep →
      (∀ q, lp <+: q → fs'.files q = fs₁.files q) →
      (∀ q, fs₁.dirs q = true → fs'.dirs q = true) →
      (tree remote fuel lp entries fs').2 = none ∧
        ∀ q, ((tree remote fuel lp entries fs').1).files q = fs'.files q ∧
          ((tree remote fuel lp entries fs').1).dirs q = fs'.dirs q := by
  intro entries fs fs₁ fs' hnd h1 hsep hfiles hdirs
  unfold tree at h1 ⊢
  cases hc : createDirAll lp fs with
  | error e => rw [hc] at h1; simp at h1
  | ok fsa =>
    rw [hc] at h1
    replace h1 :
        goEntries (fun name oid' => get remote fuel (lp ++ [name]) oid') entries fsa
          = (fs₁, none) := h1
    obtain ⟨hcg, hcf, hcd, hcd'⟩ := createDirAll_ok hc
    have hpre : ∀ q, q <+: lp → fs'.dirs q = true := by
      intro q hq
      apply hdirs
      have ha : fsa.dirs q = true := (hcd q).mpr (Or.inr hq)
      have hm := @goEntries_dirs_mono
        (fun name oid' => get remote fuel (lp ++ [name]) oid') q
        entries fsa (fun p hp fs0 => get_dirs_mono remote q fuel (lp ++ [p.1]) p.2 fs0) ha
      rw [h1] at hm
      exact hm
    have hcg' : ∀ q, q <+: lp → fs'.files q = none := by
      intro q hq
      by_contra hne
      have hq1 : (fs'.files q).isSome = true := by
        simpa [Option.isSome_iff_ne_none] using hne
      have := hsep q hq1
      rw [hpre q hq] at this
      exact Bool.true_eq_false.mp this
    rw [createDirAll_eq_ok hcg']
    have hext_a : ∀ q,
        (({ fs' with dirs := fun q => fs'.dirs q || decide (q ∈ prefixesOf lp) } : FS)).dirs q
          = fs'.dirs q := by
      intro q
      show (fs'.dirs q || decide (q ∈ prefixesOf lp)) = fs'.dirs q
      by_cases hq : q ∈ prefixesOf lp
      · simp [hq, hpre q (mem_prefixesOf.mp hq)]
      · simp [hq]
    obtain ⟨hres, hrext⟩ := goEntries_replay remote fuel lp IH entries fsa fs₁
      ({ fs' with dirs := fun q => fs'.dirs q || decide (q ∈ prefixesOf lp) } : FS)
      hnd h1
      (by
        intro p hp
        rw [hext_a p]
        exact hsep p hp)
      (fun q m o' hm hq =>
        hfiles q ((List.prefix_append lp [m]).trans hq))
      (fun q hq => by rw [hext_a q]; exact hdirs q hq)
    refine ⟨hres, fun q => ⟨(hrext q).1, (hrext q).2.trans (hext_a q)⟩⟩

theorem get_replay (remote : Remote) (hwf : Remote.wf remote) :
    ∀ (fuel : Nat) (lp : List String) (oid : String) (fs fs₁ fs' : FS),
      get remote fuel lp oid fs = (fs₁, none) → fs'.sep →
      (∀ q, lp <+: q → fs'.files q = fs₁.files q) →
      (∀ q, fs₁.dirs q = true → fs'.dirs q = true) →
      (get remote fuel lp oid fs').2 = none ∧
        ∀ q, ((get remote fuel lp oid fs').1).files q = fs'.files q ∧
          ((get remote fuel lp oid fs').1).dirs q = fs'.dirs q := by
  intro fuel
  induction fuel with
  | zero =>
    intro lp oid fs fs₁ fs' h1 _ _ _
    simp [get] at h1
  | succ fuel ih =>
    intro lp oid fs fs₁ fs' h1 hsep hfiles hdirs
    rcases hr : remote oid with _ | (_ | (_ | ((_ | t) | es | _ | _)))
    · simp [get, hr] at h1
    · simp [get, hr] at h1
    · simp [get, hr] at h1
    · simp [get, hr] at h1
    · simp only [get, hr] at h1 ⊢
      cases hw : fsWrite lp t fs with
      | error e => rw [hw] at h1; simp at h1
      | ok fsw =>
        rw [hw] at h1
        replace h1 : ((fsw, none) : FS × Option GErr) = (fs₁, none) := h1
        simp only [Prod.mk.injEq, and_true] at h1
        subst h1
        obtain ⟨hg1, hg2, hf, hd⟩ := fsWrite_ok hw
        have hw1 : fs'.dirs lp = false := by
          apply hsep
          rw [hfiles lp (List.prefix_refl lp), hf lp]
          simp
        have hw2 : fs'.dirs lp.dropLast = true := by
          apply hdirs
          rw [hd]
          exact hg2
        rw [fsWrite_eq_ok hw1 hw2]
        refine ⟨rfl, fun q => ⟨?_, rfl⟩⟩
        show (if q = lp then some t else fs'.files q) = fs'.files q
        by_cases hq : q = lp
        · rw [if_pos hq, hq, hfiles lp (List.prefix_refl lp), hf lp, if_pos rfl]
        · rw [if_neg hq]
    · rw [get_succ_tree hr] at h1 ⊢
      exact tree_replay_aux remote fuel lp ih es fs fs₁ fs' (hwf oid es hr) h1 hsep
        hfiles hdirs
    · simp [get, hr] at h1
    · simp [get, hr] at h1

theorem tree_replay (remote : Remote) (hwf : Remote.wf remote) (fuel : Nat)
    (lp : List String) (entries : List (String × String)) (fs fs₁ fs' : FS)
    (hnd : (entries.map Prod.fst).Nodup)
    (h1 : tree remote fuel lp entries fs = (fs₁, none)) (hsep : fs'.sep)
    (hfiles : ∀ q, lp <+: q → fs'.files q = fs₁.files q)
    (hdirs : ∀ q, fs₁.dirs q = true → fs'.dirs q = true) :
    (tree remote fuel lp entries fs').2 = none ∧
      ∀ q, ((tree remote fuel lp entries fs').1).files q = fs'.files q ∧
        ((tree remote fuel lp entries fs').1).dirs q = fs'.dirs q :=
  tree_replay_aux remote fuel lp (get_replay remote hwf fuel) entries fs fs₁ fs' hnd h1
    hsep hfiles hdirs

/-! ## Lemmas lifted to `tree` and `_main` -/

theorem tree_dirs_mono (remote : Remote) (q : List String) (fuel : Nat)
    (lp : List String) (entries : List (String × String)) (fs : FS)
    (h0 : fs.dirs q = true) : ((tree remote fuel lp entries fs).1).dirs q = true := by
  unfold tree
  cases hc : createDirAll lp fs with
  | error e => exact h0
  | ok fs1 =>
    obtain ⟨_, _, hd, _⟩ := createDirAll_ok hc
    exact goEntries_dirs_mono entries fs1
      (fun p hp fs0 => get_dirs_mono remote q fuel (lp ++ [p.1]) p.2 fs0)
      ((hd q).mpr (Or.inl h0))

theorem tree_files_some (remote : Remote) (q : List String) (fuel : Nat)
    (lp : List String) (entries : List (String × String)) (fs : FS) :
    ((tree remote fuel lp entries fs).1).files q = fs.files q ∨
      ∃ t, ((tree remote fuel lp entries fs).1).files q = some t := by
  unfold tree
  cases hc : createDirAll lp fs with
  | error e => exact Or.inl rfl
  | ok fs1 =>
    obtain ⟨_, hf, _, _⟩ := createDirAll_ok hc
    rcases @goEntries_files_some
        (fun name oid' => get remote fuel (lp ++ [name]) oid') q
        entries fs1 (fun p hp fs0 => get_files_some remote q fuel (lp ++ [p.1]) p.2 fs0)
      with h | h
    · exact Or.inl (h.trans (hf q))
    · exact Or.inr h

theorem tree_sep (remote : Remote) (fuel : Nat) (lp : List String)
    (entries : List (String × String)) (fs : FS) (h0 : fs.sep) :
    ((tree remote fuel lp entries fs).1).sep := by
  unfold tree
  cases hc : createDirAll lp fs with
  | error e => exact h0
  | ok fs1 =>
    exact goEntries_sep entries fs1 (fun p hp fs0 => get_sep remote fuel (lp ++ [p.1]) p.2 fs0)
      (createDirAll_sep hc h0)

theorem main_dirs_mono (startLookup : String → QueryOutcome) (remote : Remote)
    (fuel : Nat) (commit_ish : String) (remote_path : UPath) (lp : List String)
    (fs : FS) (q : List String) (h0 : fs.dirs q = true) :
    ((_main startLookup remote fuel commit_ish remote_path lp fs).1).dirs q = true := by
  rcases hs : startLookup (revParse commit_ish remote_path) with
    _ | (_ | (_ | ((_ | t) | es | _ | _)))
  · simp only [_main, hs]; exact h0
  · simp only [_main, hs]; exact h0
  · simp only [_main, hs]; exact h0
  · simp only [_main, hs]; exact h0
  · simp only [_main, hs]
    cases hw : fsWrite lp t fs with
    | ok fsw =>
      obtain ⟨_, _, _, hd⟩ := fsWrite_ok hw
      show fsw.dirs q = true
      rw [hd q]
      exact h0
    | error e => exact h0
  · simp only [_main, hs]
    exact tree_dirs_mono remote q fuel lp es fs h0
  · simp only [_main, hs]; exact h0
  · simp only [_main, hs]; exact h0

theorem main_files_some (startLookup : String → QueryOutcome) (remote : Remote)
    (fuel : Nat) (commit_ish : String) (remote_path : UPath) (lp : List String)
    (fs : FS) (q : List String) :
    ((_main startLookup remote fuel commit_ish remote_path lp fs).1).files q
        = fs.files q ∨
      ∃ t, ((_main startLookup remote fuel commit_ish remote_path lp fs).1).files q
        = some t := by
  rcases hs : startLookup (revParse commit_ish remote_path) with
    _ | (_ | (_ | ((_ | t) | es | _ | _)))
  · simp [_main, hs]
  · simp [_main, hs]
  · simp [_main, hs]
  · simp [_main, hs]
  · simp only [_main, hs]
    cases hw : fsWrite lp t fs with
    | ok fsw =>
      obtain ⟨_, _, hf, _⟩ := fsWrite_ok hw
      by_cases hqp : q = lp
      · refine Or.inr ⟨t, ?_⟩
        show fsw.files q = some t
        rw [hf q, if_pos hqp]
      · refine Or.inl ?_
        show fsw.files q = fs.files q
        rw [hf q, if_neg hqp]
    | error e => exact Or.inl rfl
  · simp only [_main, hs]
    exact tree_files_some remote q fuel lp es fs
  · simp [_main, hs]
  · simp [_main, hs]

/-! ## Write-log characterization: every run's effect is exactly a sequence
of whole-file writes plus a set of directory creations -/

theorem applyWrites_congr :
    ∀ (ws : List (List String × String)) (f g : List String → Option String),
      (∀ q, f q = g q) → ∀ q, applyWrites ws f q = applyWrites ws g q := by
  intro ws
  induction ws with
  | nil => intro f g h q; exact h q
  | cons w rest ih =>
    intro f g h q
    simp only [applyWrites]
    exact ih _ _ (fun q' => by by_cases hq : q' = w.1 <;> simp [hq, h q']) q

theorem applyWrites_append :
    ∀ (ws₁ ws₂ : List (List String × String)) (f : List String → Option String)
      (q : List String),
      applyWrites (ws₁ ++ ws₂) f q = applyWrites ws₂ (applyWrites ws₁ f) q := by
  intro ws₁
  induction ws₁ with
  | nil => intro ws₂ f q; rfl
  | cons w rest ih =>
    intro ws₂ f q
    simp only [List.cons_append, applyWrites]
    exact ih ws₂ _ q

theorem applyWrites_not_mem :
    ∀ (ws : List (List String × String)) (f : List String → Option String)
      (q : List String),
      q ∉ ws.map Prod.fst → applyWrites ws f q = f q := by
  intro ws
  induction ws with
  | nil => intro f q _; rfl
  | cons w rest ih =>
    intro f q hq
    simp only [List.map_cons, List.mem_cons] at hq
    push_neg at hq
    simp only [applyWrites]
    rw [ih _ q hq.2, if_neg hq.1]

theorem decide_mem_append (q : List String) (ds₁ ds₂ : List (List String)) :
    decide (q ∈ ds₁ ++ ds₂) = (decide (q ∈ ds₁) || decide (q ∈ ds₂)) := by
  by_cases h1 : q ∈ ds₁
  · simp [h1, List.mem_append]
  · by_cases h2 : q ∈ ds₂ <;> simp [h1, h2, List.mem_append]

theorem createDirAll_ok_dirs_bool {p : List String} {fs fs' : FS}
    (h : createDirAll p fs = .ok fs') :
    ∀ q, fs'.dirs q = (fs.dirs q || decide (q ∈ prefixesOf p)) := by
  intro q
  by_cases hg : (prefixesOf p).any (fun q => (fs.files q).isSome) = true
  · simp [createDirAll, hg] at h
  · have he : ({ fs with dirs := fun q => fs.dirs q || decide (q ∈ prefixesOf p) } : FS)
        = fs' := by
      simpa [createDirAll, hg] using h
    subst he
    rfl

theorem goEntries_writes (step : String → String → FS → FS × Option GErr) :
    ∀ (entries : List (String × String)) (fs : FS),
      (∀ p, p ∈ entries → ∀ fs0 : FS,
        ∃ (ws : List (List String × String)) (ds : List (List String)),
          (∀ q, ((step p.1 p.2 fs0).1).files q = applyWrites ws fs0.files q) ∧
          (∀ q, ((step p.1 p.2 fs0).1).dirs q = (fs0.dirs q || decide (q ∈ ds)))) →
      ∃ (ws : List (List String × String)) (ds : List (List String)),
        (∀ q, ((goEntries step entries fs).1).files q = applyWrites ws fs.files q) ∧
        (∀ q, ((goEntries step entries fs).1).dirs q
          = (fs.dirs q || decide (q ∈ ds))) := by
  intro entries
  induction entries with
  | nil =>
    intro fs _
    exact ⟨[], [], fun q => rfl, fun q => by simp [goEntries]⟩
  | cons hd tl ih =>
    intro fs h
    obtain ⟨n, o⟩ := hd
    obtain ⟨ws₁, ds₁, hf₁, hd₁⟩ := h (n, o) (List.mem_cons_self _ _) fs
    simp only [goEntries]
    cases hs : step n o fs with
    | mk fs' err =>
      rw [hs] at hf₁ hd₁
      cases err with
      | some e => exact ⟨ws₁, ds₁, hf₁, hd₁⟩
      | none =>
        obtain ⟨ws₂, ds₂, hf₂, hd₂⟩ := ih fs' (fun p hp => h p (List.mem_cons_of_mem _ hp))
        refine ⟨ws₁ ++ ws₂, ds₁ ++ ds₂, fun q => ?_, fun q => ?_⟩
        · show ((goEntries step tl fs').1).files q = applyWrites (ws₁ ++ ws₂) fs.files q
          rw [applyWrites_append, hf₂ q]
          exact applyWrites_congr ws₂ _ _ hf₁ q
        · show ((goEntries step tl fs').1).dirs q
            = (fs.dirs q || decide (q ∈ ds₁ ++ ds₂))
          rw [hd₂ q, hd₁ q, decide_mem_append, Bool.or_assoc]

theorem get_writes (remote : Remote) :
    ∀ (fuel : Nat) (lp : List String) (oid : String) (fs : FS),
      ∃ (ws : List (List String × String)) (ds : List (List String)),
        (∀ q, ((get remote fuel lp oid fs).1).files q = applyWrites ws fs.files q) ∧
        (∀ q, ((get remote fuel lp oid fs).1).dirs q
          = (fs.dirs q || decide (q ∈ ds))) := by
  intro fuel
  induction fuel with
  | zero => intro lp oid fs; exact ⟨[], [], fun q => rfl, fun q => by simp [get]⟩
  | succ fuel ih =>
    intro lp oid fs
    rcases hr : remote oid with _ | (_ | (_ | ((_ | t) | es | _ | _)))
    · exact ⟨[], [], fun q => by simp [get, hr, applyWrites],
        fun q => by simp [get, hr]⟩
    · exact ⟨[], [], fun q => by simp [get, hr, applyWrites],
        fun q => by simp [get, hr]⟩
    · exact ⟨[], [], fun q => by simp [get, hr, applyWrites],
        fun q => by simp [get, hr]⟩
    · exact ⟨[], [], fun q => by simp [get, hr, applyWrites],
        fun q => by simp [get, hr]⟩
    · cases hw : fsWrite lp t fs with
      | ok fs' =>
        obtain ⟨_, _, hf, hd⟩ := fsWrite_ok hw
        refine ⟨[(lp, t)], [], fun q => ?_, fun q => ?_⟩
        · simp only [get, hr, hw]
          rw [hf q]
          rfl
        · simp only [get, hr, hw]
          rw [hd q]
          simp
      | error e =>
        exact ⟨[], [], fun q => by simp [get, hr, hw, applyWrites],
          fun q => by simp [get, hr, hw]⟩
    · cases hc : createDirAll lp fs with
      | error e =>
        exact ⟨[], [], fun q => by simp [get, hr, hc, applyWrites],
          fun q => by simp [get, hr, hc]⟩
      | ok fs1 =>
        obtain ⟨_, hcf, _, _⟩ := createDirAll_ok hc
        have hdb := createDirAll_ok_dirs_bool hc
        obtain ⟨ws, ds, hfw, hdw⟩ := goEntries_writes
          (fun name oid' => get remote fuel (lp ++ [name]) oid') es fs1
          (fun p hp fs0 => ih (lp ++ [p.1]) p.2 fs0)
        refine ⟨ws, prefixesOf lp ++ ds, fun q => ?_, fun q => ?_⟩
        · simp only [get, hr, hc]
          rw [hfw q]
          exact applyWrites_congr ws _ _ hcf q
        · simp only [get, hr, hc]
          rw [hdw q, hdb q, decide_mem_append, Bool.or_assoc]
    · exact ⟨[], [], fun q => by simp [get, hr, applyWrites],
        fun q => by simp [get, hr]⟩
    · exact ⟨[], [], fun q => by simp [get, hr, applyWrites],
        fun q => by simp [get, hr]⟩

theorem tree_writes (remote : Remote) (fuel : Nat) (lp : List String)
    (entries : List (String × String)) (fs : FS) :
    ∃ (ws : List (List String × String)) (ds : List (List String)),
      (∀ q, ((tree remote fuel lp entries fs).1).files q = applyWrites ws fs.files q) ∧
      (∀ q, ((tree remote fuel lp entries fs).1).dirs q
        = (fs.dirs q || decide (q ∈ ds))) := by
  unfold tree
  cases hc : createDirAll lp fs with
  | error e => exact ⟨[], [], fun q => rfl, fun q => by simp⟩
  | ok fs1 =>
    obtain ⟨_, hcf, _, _⟩ := createDirAll_ok hc
    have hdb := createDirAll_ok_dirs_bool hc
    obtain ⟨ws, ds, hfw, hdw⟩ := goEntries_writes
      (fun name oid' => get remote fuel (lp ++ [name]) oid') entries fs1
      (fun p hp fs0 => get_writes remote fuel (lp ++ [p.1]) p.2 fs0)
    refine ⟨ws, prefixesOf lp ++ ds, fun q => ?_, fun q => ?_⟩
    · show ((goEntries (fun name oid' => get remote fuel (lp ++ [name]) oid')
        entries fs1).1).files q = applyWrites ws fs.files q
      rw [hfw q]
      exact applyWrites_congr ws _ _ hcf q
    · show ((goEntries (fun name oid' => get remote fuel (lp ++ [name]) oid')
        entries fs1).1).dirs q = (fs.dirs q || decide (q ∈ prefixesOf lp ++ ds))
      rw [hdw q, hdb q, decide_mem_append, Bool.or_assoc]

theorem main_writes (startLookup : String → QueryOutcome) (remote : Remote)
    (fuel : Nat) (commit_ish : String) (remote_path : UPath) (lp : List String)
    (fs : FS) :
    ∃ (ws : List (List String × String)) (ds : List (List String)),
      (∀ q, ((_main startLookup remote fuel commit_ish remote_path lp fs).1).files q
        = applyWrites ws fs.files q) ∧
      (∀ q, ((_main startLookup remote fuel commit_ish remote_path lp fs).1).dirs q
        = (fs.dirs q || decide (q ∈ ds))) := by
  rcases hs : startLookup (revParse commit_ish remote_path) with
    _ | (_ | (_ | ((_ | t) | es | _ | _)))
  · exact ⟨[], [], fun q => by simp [_main, hs, applyWrites],
      fun q => by simp [_main, hs]⟩
  · exact ⟨[], [], fun q => by simp [_main, hs, applyWrites],
      fun q => by simp [_main, hs]⟩
  · exact ⟨[], [], fun q => by simp [_main, hs, applyWrites],
      fun q => by simp [_main, hs]⟩
  · exact ⟨[], [], fun q => by simp [_main, hs, applyWrites],
      fun q => by simp [_main, hs]⟩
  · cases hw : fsWrite lp t fs with
    | ok fs' =>
      obtain ⟨_, _, hf, hd⟩ := fsWrite_ok hw
      refine ⟨[(lp, t)], [], fun q => ?_, fun q => ?_⟩
      · simp only [_main, hs, hw]
        rw [hf q]
        rfl
      · simp only [_main, hs, hw]
        rw [hd q]
        simp
    | error e =>
      exact ⟨[], [], fun q => by simp [_main, hs, hw, applyWrites],
        fun q => by simp [_main, hs, hw]⟩
  · obtain ⟨ws, ds, hfw, hdw⟩ := tree_writes remote fuel lp es fs
    refine ⟨ws, ds, fun q => ?_, fun q => ?_⟩
    · simp only [_main, hs]
      exact hfw q
    · simp only [_main, hs]
      exact hdw q
  · exact ⟨[], [], fun q => by simp [_main, hs, applyWrites],
      fun q => by simp [_main, hs]⟩
  · exact ⟨[], [], fun q => by simp [_main, hs, applyWrites],
      fun q => by simp [_main, hs]⟩

/-! ## Fixture well-formedness lemmas -/

theorem emptyFS_sep : emptyFS.sep := by
  intro p hp
  simp [emptyFS] at hp

theorem fsD_prefClosed : fsD.prefClosed := by
  intro p n h
  simp only [fsD, decide_eq_true_eq] at h ⊢
  rcases h with rfl | rfl
  · simp
  · cases n <;> simp

theorem remoteA_wf : Remote.wf remoteA := by
  intro oid entries h
  unfold remoteA at h
  split at h <;> simp [treeResp, objResp, blobResp] at h

theorem startTreeA_wf : StartWf startTreeA := by
  intro k entries h
  unfold startTreeA at h
  simp only [treeResp, objResp, QueryOutcome.response.injEq, Option.some.injEq,
    Obj.tree.injEq] at h
  rw [← h]
  simp

/-! ## The claims -/

/-- C1: the claim says an absolute-style remote path is normalized by
stripping only the leading root component, keeping the remaining components
in order, so that `"/src/lib"` is queried as `"{rev}:src/lib"`. Evaluating
the embedding of lines 197-207 on that very input shows the code instead
drops the final component and keeps the leading root: the lookup key built
at line 213 is `"HEAD:/src"`, not `"HEAD:src/lib"`. The remaining parts of
the claim do hold: relative paths pass through unchanged, and the key is
always the composition of commit-ish, `":"`, and the normalized path. -/
theorem c1_absolute_path_drops_last_component_not_root :
    revParse "HEAD" { absolute := true, comps := ["src", "lib"] } = "HEAD:/src" ∧
    revParse "HEAD" { absolute := true, comps := ["src", "lib"] } ≠ "HEAD:src/lib" ∧
    (∀ cs : List String,
      normalizeRemote { absolute := false, comps := cs }
        = { absolute := false, comps := cs }) ∧
    (∀ (ci : String) (p : UPath),
      revParse ci p = ci ++ ":" ++ (normalizeRemote p).render) :=
  ⟨rfl, by decide, fun cs => rfl, fun ci p => rfl⟩

/-- C2: for every materialized node of kind File, absent content (binary
payload) fails with the binary-content error leaving the filesystem exactly
as it was, and present content materializes as the whole-file write of
exactly that text; this holds for the root file case (`_main`, lines
219-221) and for nested files at any depth (`get`, lines 95-102). -/
theorem c2_file_content_dichotomy
    (startLookup : String → QueryOutcome) (remote : Remote) (fuel : Nat)
    (commit_ish : String) (remote_path : UPath) (lp : List String) (oid : String)
    (fs : FS) :
    (remote oid = blobResp none →
      get remote (fuel + 1) lp oid fs = (fs, some .binaryBlob)) ∧
    (∀ t fs', remote oid = blobResp (some t) → fsWrite lp t fs = .ok fs' →
      get remote (fuel + 1) lp oid fs = (fs', none) ∧ fs'.files lp = some t ∧
        ∀ q, q ≠ lp → fs'.files q = fs.files q) ∧
    (startLookup (revParse commit_ish remote_path) = blobResp none →
      _main startLookup remote fuel commit_ish remote_path lp fs
        = (fs, some .binaryBlob)) ∧
    (∀ t fs', startLookup (revParse commit_ish remote_path) = blobResp (some t) →
      fsWrite lp t fs = .ok fs' →
      _main startLookup remote fuel commit_ish remote_path lp fs = (fs', none)) := by
  refine ⟨fun h => by simp [get, h], fun t fs' h hw => ?_,
    fun h => by simp [_main, h], fun t fs' h hw => by simp [_main, h, hw]⟩
  obtain ⟨_, _, hf, _⟩ := fsWrite_ok hw
  refine ⟨by simp [get, h, hw], by rw [hf lp, if_pos rfl],
    fun q hq => by rw [hf q, if_neg hq]⟩

/-- C2 witness: a binary blob fails, a text blob writes exactly its text. -/
theorem c2_file_content_dichotomy_witness :
    get blobRemoteNone 1 ["f"] "o" emptyFS = (emptyFS, some .binaryBlob) ∧
    (get blobRemoteX 1 ["f"] "o" emptyFS = (fsF, none) ∧ fsF.files ["f"] = some "x" ∧
      ∀ q, q ≠ ["f"] → fsF.files q = emptyFS.files q) :=
  ⟨(c2_file_content_dichotomy blobRemoteNone blobRemoteNone 0 "HEAD" relRoot ["f"] "o"
      emptyFS).1 rfl,
   (c2_file_content_dichotomy blobRemoteX blobRemoteX 0 "HEAD" relRoot ["f"] "o"
      emptyFS).2.1 "x" fsF rfl rfl⟩

/-- C3: a lookup resolving to a commit or tag reference makes the walk fail:
at the `Start` site when it is the root object (the spec's
`UnsupportedRootKind`, lines 235-236) and at the `Cont` site when it appears
as a directory entry at any depth (the spec's `UnsupportedNestedKind`, lines
117-118); the filesystem is returned untouched at the failing node, so no
commit or tag object is ever materialized. Both bail sites print the same
message text; they are distinguished by the site that raises them. -/
theorem c3_commit_tag_rejected
    (startLookup : String → QueryOutcome) (remote : Remote) (fuel : Nat)
    (commit_ish : String) (remote_path : UPath) (lp : List String) (oid : String)
    (fs : FS) :
    (remote oid = objResp .commit →
      get remote (fuel + 1) lp oid fs = (fs, some .unexpectedCommitCont)) ∧
    (remote oid = objResp .tag →
      get remote (fuel + 1) lp oid fs = (fs, some .unexpectedTagCont)) ∧
    (startLookup (revParse commit_ish remote_path) = objResp .commit →
      _main startLookup remote fuel commit_ish remote_path lp fs
        = (fs, some .unexpectedCommitStart)) ∧
    (startLookup (revParse commit_ish remote_path) = objResp .tag →
      _main startLookup remote fuel commit_ish remote_path lp fs
        = (fs, some .unexpectedTagStart)) := by
  exact ⟨fun h => by simp [get, h], fun h => by simp [get, h],
    fun h => by simp [_main, h], fun h => by simp [_main, h]⟩

/-- C3 witness: a nested commit object and a root tag object both fail. -/
theorem c3_commit_tag_rejected_witness :
    get remoteCommit 1 [] "o" emptyFS = (emptyFS, some .unexpectedCommitCont) ∧
    _main startTag remoteCommit 0 "HEAD" relRoot [] emptyFS
      = (emptyFS, some .unexpectedTagStart) :=
  ⟨(c3_commit_tag_rejected startTag remoteCommit 0 "HEAD" relRoot [] "o" emptyFS).1 rfl,
   (c3_commit_tag_rejected startTag remoteCommit 0 "HEAD" relRoot [] "o"
      emptyFS).2.2.2 rfl⟩

/-- C4: the concurrency cap computed for a directory's fan-out (line 132) is
exactly the directory's entry count plus one, recomputed per directory from
that directory's own entry list (so no cap is shared across levels), and the
`saturating_add` cannot overflow: at the largest possible entry count the
bound saturates at `usize::MAX` instead of wrapping. -/
theorem c4_concurrency_bound_is_entries_plus_one
    (entries : List (String × String)) (h : entries.length < usizeMax) :
    treeConcurrency entries = entries.length + 1 ∧
    usizeSaturatingAdd usizeMax 1 = usizeMax ∧
    (∀ e₂ : List (String × String), e₂.length = entries.length →
      treeConcurrency e₂ = treeConcurrency entries) := by
  refine ⟨?_, ?_, ?_⟩
  · exact Nat.min_eq_left (Nat.succ_le_of_lt h)
  · exact Nat.min_eq_right (Nat.le_succ usizeMax)
  · intro e₂ he
    unfold treeConcurrency
    rw [he]

/-- C4 witness: a two-entry directory gets a cap of three. -/
theorem c4_concurrency_bound_is_entries_plus_one_witness :
    ([("a", "i"), ("b", "j")] : List (String × String)).length < usizeMax ∧
    treeConcurrency [("a", "i"), ("b", "j")] = 3 :=
  ⟨by decide,
   (c4_concurrency_bound_is_entries_plus_one [("a", "i"), ("b", "j")] (by decide)).1⟩

/-- C9: whatever way the root lookup fails to produce a usable object —
commit root, tag root, transport failure, missing repository or missing
object — the run returns the filesystem exactly as it was passed in: the
Resolver stage (lines 209-237 up to the dispatch) classifies only and
performs no filesystem write or directory creation. -/
theorem c9_resolver_stage_has_no_filesystem_effects
    (startLookup : String → QueryOutcome) (remote : Remote) (fuel : Nat)
    (commit_ish : String) (remote_path : UPath) (lp : List String) (fs : FS) :
    (startLookup (revParse commit_ish remote_path) = objResp .commit →
      _main startLookup remote fuel commit_ish remote_path lp fs
        = (fs, some .unexpectedCommitStart)) ∧
    (startLookup (revParse commit_ish remote_path) = objResp .tag →
      _main startLookup remote fuel commit_ish remote_path lp fs
        = (fs, some .unexpectedTagStart)) ∧
    (startLookup (revParse commit_ish remote_path) = .transportError →
      _main startLookup remote fuel commit_ish remote_path lp fs
        = (fs, some .lookupFailed)) ∧
    (startLookup (revParse commit_ish remote_path) = .response none →
      _main startLookup remote fuel commit_ish remote_path lp fs
        = (fs, some .noRepository)) ∧
    (startLookup (revParse commit_ish remote_path) = .response (some none) →
      _main startLookup remote fuel commit_ish remote_path lp fs
        = (fs, some .noObject)) := by
  exact ⟨fun h => by simp [_main, h], fun h => by simp [_main, h],
    fun h => by simp [_main, h], fun h => by simp [_main, h],
    fun h => by simp [_main, h]⟩

/-- C9 witness: a commit root fails with the state returned untouched. -/
theorem c9_resolver_stage_has_no_filesystem_effects_witness :
    _main startCommit remoteEmpty 0 "HEAD" relRoot [] emptyFS
      = (emptyFS, some .unexpectedCommitStart) :=
  (c9_resolver_stage_has_no_filesystem_effects startCommit remoteEmpty 0 "HEAD" relRoot
    [] emptyFS).1 rfl

/-- C5 counterexample: the claim says the file write itself implicitly
creates missing parent directories. Materializing a root file at
`["d", "f"]` on a fresh destination (where directory `d` does not exist)
fails with a missing-parent error and creates no directory, because
`tokio::fs::write` does not create parents. -/
theorem c5_counterexample_write_does_not_create_parents :
    _main startBlobX remoteEmpty 0 "HEAD" relRoot ["d", "f"] emptyFS
      = (emptyFS, some (.writeNoParent ["d", "f"])) ∧
    ((_main startBlobX remoteEmpty 0 "HEAD" relRoot ["d", "f"] emptyFS).1).dirs ["d"]
      = false :=
  ⟨rfl, rfl⟩

/-- C5 (amended): for every successful file materialization, all ancestor
directories of the local path exist afterwards and the text content is
written to the local path, fully replacing any existing file there
(overwrite, not append or merge), while no directory is created or removed;
the parent directories are not created by the write itself — they must
already exist (in the directory walk they are created beforehand by
`create_dir_all`), and a write into a missing parent fails. -/
theorem c5_successful_write_replaces_and_parents_preexist
    (remote : Remote) (fuel : Nat) (lp : List String) (oid : String) (t : String)
    (fs fs' : FS) (hpc : fs.prefClosed)
    (hb : remote oid = blobResp (some t))
    (h : get remote (fuel + 1) lp oid fs = (fs', none)) :
    (∀ n, n < lp.length → fs'.dirs (lp.take n) = true) ∧
    fs'.files lp = some t ∧
    (∀ q, q ≠ lp → fs'.files q = fs.files q) ∧
    (∀ q, fs'.dirs q = fs.dirs q) := by
  simp only [get, hb] at h
  cases hw : fsWrite lp t fs with
  | error e => rw [hw] at h; simp at h
  | ok fsw =>
    rw [hw] at h
    replace h : ((fsw, none) : FS × Option GErr) = (fs', none) := h
    simp only [Prod.mk.injEq, and_true] at h
    subst h
    obtain ⟨hg1, hg2, hf, hd⟩ := fsWrite_ok hw
    refine ⟨fun n hn => ?_, by rw [hf lp, if_pos rfl],
      fun q hq => by rw [hf q, if_neg hq], hd⟩
    rw [hd]
    have htake : lp.take n = lp.dropLast.take n := by
      rw [List.dropLast_eq_take, List.take_take]
      congr 1
      omega
    rw [htake]
    exact hpc lp.dropLast n hg2

/-- C5 witness: with parent `d` pre-existing, the write succeeds, the
ancestors are directories afterwards, and the content is exactly the text. -/
theorem c5_successful_write_replaces_and_parents_preexist_witness :
    fsD.prefClosed ∧ get blobRemoteX 1 ["d", "f"] "o" fsD = (fsD', none) ∧
    fsD'.dirs (["d", "f"].take 1) = true ∧ fsD'.files ["d", "f"] = some "x" :=
  ⟨fsD_prefClosed, rfl,
   (c5_successful_write_replaces_and_parents_preexist blobRemoteX 0 ["d", "f"] "o" "x"
      fsD fsD' fsD_prefClosed rfl rfl).1 1 (by decide),
   (c5_successful_write_replaces_and_parents_preexist blobRemoteX 0 ["d", "f"] "o" "x"
      fsD fsD' fsD_prefClosed rfl rfl).2.1⟩

/-- C6: in a directory walk at local path `L` (lines 133-142), the recursive
materialize call for the entry named `n` — wherever that entry sits in the
listing and whatever state the walk has reached — receives exactly the local
path `L ++ [n]`, and the name-to-path mapping under a fixed parent is 1:1. -/
theorem c6_entry_path_is_parent_join_name
    (remote : Remote) (fuel : Nat) (lp : List String) (n o : String)
    (pre rest : List (String × String)) (fs fs0 fsi : FS)
    (hcd : createDirAll lp fs = .ok fs0)
    (hpre : goEntries (fun name oid' => get remote fuel (lp ++ [name]) oid') pre fs0
      = (fsi, none)) :
    tree remote fuel lp (pre ++ (n, o) :: rest) fs =
      (match get remote fuel (lp ++ [n]) o fsi with
       | (fs', none) =>
         goEntries (fun name oid' => get remote fuel (lp ++ [name]) oid') rest fs'
       | (fs', some e) => (fs', some e)) ∧
    (∀ n₁ n₂ : String, lp ++ [n₁] = lp ++ [n₂] → n₁ = n₂) := by
  constructor
  · unfold tree
    rw [hcd]
    show goEntries (fun name oid' => get remote fuel (lp ++ [name]) oid')
      (pre ++ (n, o) :: rest) fs0 = _
    rw [goEntries_append, hpre]
    show goEntries (fun name oid' => get remote fuel (lp ++ [name]) oid')
      ((n, o) :: rest) fsi = _
    simp only [goEntries]
  · intro n₁ n₂ h
    have h' := List.append_cancel_left h
    simpa using h'

/-- C6 witness: the single entry `a.txt` of a root directory walk is
materialized at `[] ++ ["a.txt"]`. -/
theorem c6_entry_path_is_parent_join_name_witness :
    (tree remoteA 1 [] ([] ++ ("a.txt", "id1") :: []) emptyFS =
      match get remoteA 1 ([] ++ ["a.txt"]) "id1" fsStepA with
      | (fs', none) =>
        goEntries (fun name oid' => get remoteA 1 ([] ++ [name]) oid') [] fs'
      | (fs', some e) => (fs', some e)) ∧
    (∀ n₁ n₂ : String, [] ++ [n₁] = [] ++ [n₂] → n₁ = n₂) :=
  c6_entry_path_is_parent_join_name remoteA 1 [] "a.txt" "id1" [] [] emptyFS fsStepA
    fsStepA rfl rfl

/-- C8: when the walk on an entry of a directory fan-out fails, the
directory's own materialize call returns that exact failure (fail-fast, no
recovery or retry), and the failure propagates unchanged through the nested
`get` dispatch (lines 103-116) and through the root dispatch in `_main`
(lines 222-234), so it reaches the root of the walk. -/
theorem c8_fail_fast_failure_propagates_to_root
    (startLookup : String → QueryOutcome) (remote : Remote) (fuel : Nat)
    (commit_ish : String) (remote_path : UPath) (lp : List String) (oid : String) :
    (∀ (pre rest : List (String × String)) (n o : String) (fs fs0 fsi fs' : FS)
        (e : GErr),
      createDirAll lp fs = .ok fs0 →
      goEntries (fun name oid' => get remote fuel (lp ++ [name]) oid') pre fs0
        = (fsi, none) →
      get remote fuel (lp ++ [n]) o fsi = (fs', some e) →
      tree remote fuel lp (pre ++ (n, o) :: rest) fs = (fs', some e)) ∧
    (∀ (entries : List (String × String)) (fs fs' : FS) (e : GErr),
      remote oid = treeResp entries →
      tree remote fuel lp entries fs = (fs', some e) →
      get remote (fuel + 1) lp oid fs = (fs', some e)) ∧
    (∀ (entries : List (String × String)) (fs fs' : FS) (e : GErr),
      startLookup (revParse commit_ish remote_path) = treeResp entries →
      tree remote fuel lp entries fs = (fs', some e) →
      _main startLookup remote fuel commit_ish remote_path lp fs = (fs', some e)) := by
  refine ⟨?_, ?_, ?_⟩
  · intro pre rest n o fs fs0 fsi fs' e hcd hpre hfail
    unfold tree
    rw [hcd]
    show goEntries (fun name oid' => get remote fuel (lp ++ [name]) oid')
      (pre ++ (n, o) :: rest) fs0 = _
    rw [goEntries_append, hpre]
    show goEntries (fun name oid' => get remote fuel (lp ++ [name]) oid')
      ((n, o) :: rest) fsi = _
    simp only [goEntries]
    rw [hfail]
  · intro entries fs fs' e hr htree
    rw [get_succ_tree hr]
    exact htree
  · intro entries fs fs' e hs htree
    simp only [_main, hs]
    exact htree

/-- C8 witness: a directory whose single entry is a binary blob fails with
the child's error, and the error surfaces unchanged from the root lookup. -/
theorem c8_fail_fast_failure_propagates_to_root_witness :
    tree remoteBin 1 [] ([] ++ ("bin", "b1") :: []) emptyFS
      = (fsStepA, some .binaryBlob) ∧
    get remoteBin 2 [] "d" emptyFS = (fsStepA, some .binaryBlob) :=
  ⟨(c8_fail_fast_failure_propagates_to_root startTreeA remoteBin 1 "HEAD" relRoot []
      "d").1 [] [] "bin" "b1" emptyFS fsStepA fsStepA fsStepA .binaryBlob rfl rfl rfl,
   (c8_fail_fast_failure_propagates_to_root startTreeA remoteBin 1 "HEAD" relRoot []
      "d").2.1 [("bin", "b1")] emptyFS fsStepA .binaryBlob rfl rfl⟩

/-- C10: materialization never deletes or removes anything from local
storage. For any run — successful or failed, a nested `get` step or the
whole `_main` run — there is a sequence `ws` of whole-file writes and a set
`ds` of created directories such that the final file map is exactly the
initial one overlaid by those writes and the final directory map is exactly
the initial one extended by those directories. Hence every pre-existing file
whose path is not a written file's path is still present with its exact
previous content, every pre-existing directory still exists, and recursive
directory creation and whole-file writes are the only filesystem operations
performed at any step. -/
theorem c10_materialization_only_writes_and_creates
    (startLookup : String → QueryOutcome) (remote : Remote) (fuel : Nat)
    (commit_ish : String) (remote_path : UPath) (lp : List String) (oid : String)
    (fs : FS) :
    (∃ (ws : List (List String × String)) (ds : List (List String)),
      (∀ q, q ∉ ws.map Prod.fst →
        ((get remote fuel lp oid fs).1).files q = fs.files q) ∧
      (∀ q, fs.dirs q = true → ((get remote fuel lp oid fs).1).dirs q = true) ∧
      (∀ q, ((get remote fuel lp oid fs).1).files q = applyWrites ws fs.files q) ∧
      (∀ q, ((get remote fuel lp oid fs).1).dirs q
        = (fs.dirs q || decide (q ∈ ds)))) ∧
    (∃ (ws : List (List String × String)) (ds : List (List String)),
      (∀ q, q ∉ ws.map Prod.fst →
        ((_main startLookup remote fuel commit_ish remote_path lp fs).1).files q
          = fs.files q) ∧
      (∀ q, fs.dirs q = true →
        ((_main startLookup remote fuel commit_ish remote_path lp fs).1).dirs q
          = true) ∧
      (∀ q, ((_main startLookup remote fuel commit_ish remote_path lp fs).1).files q
        = applyWrites ws fs.files q) ∧
      (∀ q, ((_main startLookup remote fuel commit_ish remote_path lp fs).1).dirs q
        = (fs.dirs q || decide (q ∈ ds)))) := by
  constructor
  · obtain ⟨ws, ds, hfw, hdw⟩ := get_writes remote fuel lp oid fs
    refine ⟨ws, ds, fun q hq => ?_, fun q h0 => ?_, hfw, hdw⟩
    · rw [hfw q]
      exact applyWrites_not_mem ws _ q hq
    · rw [hdw q, h0]
      simp
  · obtain ⟨ws, ds, hfw, hdw⟩ := main_writes startLookup remote fuel commit_ish
      remote_path lp fs
    refine ⟨ws, ds, fun q hq => ?_, fun q h0 => ?_, hfw, hdw⟩
    · rw [hfw q]
      exact applyWrites_not_mem ws _ q hq
    · rw [hdw q, h0]
      simp

/-- C10 witness: on a concrete failed run over a fresh destination, the
pre-existing root directory still exists. -/
theorem c10_materialization_only_writes_and_creates_witness :
    emptyFS.dirs [] = true ∧
    ((_main startCommit remoteEmpty 0 "HEAD" relRoot [] emptyFS).1).dirs [] = true := by
  refine ⟨rfl, ?_⟩
  obtain ⟨ws, ds, h1, h2, h3, h4⟩ :=
    (c10_materialization_only_writes_and_creates startCommit remoteEmpty 0 "HEAD"
      relRoot [] "o" emptyFS).2
  exact h2 [] rfl

/-- C7: for a fixed remote state (with the well-formedness git guarantees:
distinct entry names per tree) and a separated local destination, running
the whole walk a second time after a successful run succeeds again and
leaves byte-identical file contents and the identical directory set: file
writes overwrite with the same text and directory creation tolerates
existing directories, so the walk is idempotent. -/
theorem c7_walk_is_idempotent
    (startLookup : String → QueryOutcome) (remote : Remote) (fuel : Nat)
    (commit_ish : String) (remote_path : UPath) (lp : List String) (fs fs₁ : FS)
    (hwf : Remote.wf remote) (hswf : StartWf startLookup) (hsep : fs.sep)
    (h1 : _main startLookup remote fuel commit_ish remote_path lp fs = (fs₁, none)) :
    ∃ fs₂, _main startLookup remote fuel commit_ish remote_path lp fs₁ = (fs₂, none) ∧
      ∀ q, fs₂.files q = fs₁.files q ∧ fs₂.dirs q = fs₁.dirs q := by
  rcases hs : startLookup (revParse commit_ish remote_path) with
    _ | (_ | (_ | ((_ | t) | es | _ | _)))
  · simp [_main, hs] at h1
  · simp [_main, hs] at h1
  · simp [_main, hs] at h1
  · simp [_main, hs] at h1
  · simp only [_main, hs] at h1 ⊢
    cases hw : fsWrite lp t fs with
    | error e => rw [hw] at h1; simp at h1
    | ok fsw =>
      rw [hw] at h1
      replace h1 : ((fsw, none) : FS × Option GErr) = (fs₁, none) := h1
      simp only [Prod.mk.injEq, and_true] at h1
      subst h1
      obtain ⟨hg1, hg2, hf, hd⟩ := fsWrite_ok hw
      have hw1 : fsw.dirs lp = false := by rw [hd lp]; exact hg1
      have hw2 : fsw.dirs lp.dropLast = true := by rw [hd lp.dropLast]; exact hg2
      rw [fsWrite_eq_ok hw1 hw2]
      refine ⟨_, rfl, fun q => ⟨?_, rfl⟩⟩
      show (if q = lp then some t else fsw.files q) = fsw.files q
      by_cases hq : q = lp
      · rw [if_pos hq, hq, hf lp, if_pos rfl]
      · rw [if_neg hq]
  · simp only [_main, hs] at h1 ⊢
    have hsep1 : fs₁.sep := by
      have h2 := tree_sep remote fuel lp es fs hsep
      rw [h1] at h2
      exact h2
    obtain ⟨h2, hext⟩ := tree_replay remote hwf fuel lp es fs fs₁ fs₁ (hswf _ es hs) h1
      hsep1 (fun q _ => rfl) (fun q hq => hq)
    cases hgb : tree remote fuel lp es fs₁ with
    | mk fs₂ err =>
      rw [hgb] at h2 hext
      simp only at h2
      subst h2
      exact ⟨fs₂, rfl, hext⟩
  · simp [_main, hs] at h1
  · simp [_main, hs] at h1

/-- C7 witness: rerunning the one-entry walk on its own result changes
nothing. -/
theorem c7_walk_is_idempotent_witness :
    ∃ fs₂, _main startTreeA remoteA 1 "HEAD" relRoot [] fsRunA = (fs₂, none) ∧
      ∀ q, fs₂.files q = fsRunA.files q ∧ fs₂.dirs q = fsRunA.dirs q :=
  c7_walk_is_idempotent startTreeA remoteA 1 "HEAD" relRoot [] emptyFS fsRunA
    remoteA_wf startTreeA_wf emptyFS_sep rfl

end GGF
